import Mathlib

/-!
# Comment occurrence scanner and debug refactoring of godoctor

A shallow embedding of FindInComments (analysis/names/comments.go) and of the
showAffected / showReferences commands of the debug refactoring
(refactoring/debug.go), with the library routines they call (strings.Count,
regexp.MustCompile, FindAllStringIndex) modelled on lists of code points.

Conventions of the embedding:
* a Go string is a list of Unicode code points (List Char), i.e. valid UTF-8;
  indices and lengths are byte indices, computed with runeLen and len;
* Go int offsets are natural numbers (file offsets are never negative and the
  sums formed here stay far below the 64-bit limit);
* a run-time panic is the outcome Outcome.panic;
* the scan is defined for an arbitrary compile function, FindInCommentsWith, so that
  statements can cover every pattern; FindInComments is the scan with the compile
  function modelled here, which handles a fragment of the regexp syntax and gives the
  outcome Outcome.unmodelled outside it, never a made-up result.
-/

namespace GoDoctor

/-! ## Unicode classes -/

/-- Code point ranges of the Unicode general category L (letters: Lu, Ll, Lt, Lm, Lo),
as of Unicode 14.0.0 (later versions add ranges), in increasing order; the table behind
the class \pL of Go's regexp
package and behind unicode.IsLetter. -/
def letterRanges : List (Nat × Nat) :=
  [(65, 90), (97, 122), (170, 170), (181, 181), (186, 186), (192, 214), (216, 246), (248, 705),
   (710, 721), (736, 740), (748, 748), (750, 750), (880, 884), (886, 887), (890, 893), (895, 895),
   (902, 902), (904, 906), (908, 908), (910, 929), (931, 1013), (1015, 1153), (1162, 1327),
   (1329, 1366), (1369, 1369), (1376, 1416), (1488, 1514), (1519, 1522), (1568, 1610),
   (1646, 1647), (1649, 1747), (1749, 1749), (1765, 1766), (1774, 1775), (1786, 1788),
   (1791, 1791), (1808, 1808), (1810, 1839), (1869, 1957), (1969, 1969), (1994, 2026),
   (2036, 2037), (2042, 2042), (2048, 2069), (2074, 2074), (2084, 2084), (2088, 2088),
   (2112, 2136), (2144, 2154), (2160, 2183), (2185, 2190), (2208, 2249), (2308, 2361),
   (2365, 2365), (2384, 2384), (2392, 2401), (2417, 2432), (2437, 2444), (2447, 2448),
   (2451, 2472), (2474, 2480), (2482, 2482), (2486, 2489), (2493, 2493), (2510, 2510),
   (2524, 2525), (2527, 2529), (2544, 2545), (2556, 2556), (2565, 2570), (2575, 2576),
   (2579, 2600), (2602, 2608), (2610, 2611), (2613, 2614), (2616, 2617), (2649, 2652),
   (2654, 2654), (2674, 2676), (2693, 2701), (2703, 2705), (2707, 2728), (2730, 2736),
   (2738, 2739), (2741, 2745), (2749, 2749), (2768, 2768), (2784, 2785), (2809, 2809),
   (2821, 2828), (2831, 2832), (2835, 2856), (2858, 2864), (2866, 2867), (2869, 2873),
   (2877, 2877), (2908, 2909), (2911, 2913), (2929, 2929), (2947, 2947), (2949, 2954),
   (2958, 2960), (2962, 2965), (2969, 2970), (2972, 2972), (2974, 2975), (2979, 2980),
   (2984, 2986), (2990, 3001), (3024, 3024), (3077, 3084), (3086, 3088), (3090, 3112),
   (3114, 3129), (3133, 3133), (3160, 3162), (3165, 3165), (3168, 3169), (3200, 3200),
   (3205, 3212), (3214, 3216), (3218, 3240), (3242, 3251), (3253, 3257), (3261, 3261),
   (3293, 3294), (3296, 3297), (3313, 3314), (3332, 3340), (3342, 3344), (3346, 3386),
   (3389, 3389), (3406, 3406), (3412, 3414), (3423, 3425), (3450, 3455), (3461, 3478),
   (3482, 3505), (3507, 3515), (3517, 3517), (3520, 3526), (3585, 3632), (3634, 3635),
   (3648, 3654), (3713, 3714), (3716, 3716), (3718, 3722), (3724, 3747), (3749, 3749),
   (3751, 3760), (3762, 3763), (3773, 3773), (3776, 3780), (3782, 3782), (3804, 3807),
   (3840, 3840), (3904, 3911), (3913, 3948), (3976, 3980), (4096, 4138), (4159, 4159),
   (4176, 4181), (4186, 4189), (4193, 4193), (4197, 4198), (4206, 4208), (4213, 4225),
   (4238, 4238), (4256, 4293), (4295, 4295), (4301, 4301), (4304, 4346), (4348, 4680),
   (4682, 4685), (4688, 4694), (4696, 4696), (4698, 4701), (4704, 4744), (4746, 4749),
   (4752, 4784), (4786, 4789), (4792, 4798), (4800, 4800), (4802, 4805), (4808, 4822),
   (4824, 4880), (4882, 4885), (4888, 4954), (4992, 5007), (5024, 5109), (5112, 5117),
   (5121, 5740), (5743, 5759), (5761, 5786), (5792, 5866), (5873, 5880), (5888, 5905),
   (5919, 5937), (5952, 5969), (5984, 5996), (5998, 6000), (6016, 6067), (6103, 6103),
   (6108, 6108), (6176, 6264), (6272, 6276), (6279, 6312), (6314, 6314), (6320, 6389),
   (6400, 6430), (6480, 6509), (6512, 6516), (6528, 6571), (6576, 6601), (6656, 6678),
   (6688, 6740), (6823, 6823), (6917, 6963), (6981, 6988), (7043, 7072), (7086, 7087),
   (7098, 7141), (7168, 7203), (7245, 7247), (7258, 7293), (7296, 7304), (7312, 7354),
   (7357, 7359), (7401, 7404), (7406, 7411), (7413, 7414), (7418, 7418), (7424, 7615),
   (7680, 7957), (7960, 7965), (7968, 8005), (8008, 8013), (8016, 8023), (8025, 8025),
   (8027, 8027), (8029, 8029), (8031, 8061), (8064, 8116), (8118, 8124), (8126, 8126),
   (8130, 8132), (8134, 8140), (8144, 8147), (8150, 8155), (8160, 8172), (8178, 8180),
   (8182, 8188), (8305, 8305), (8319, 8319), (8336, 8348), (8450, 8450), (8455, 8455),
   (8458, 8467), (8469, 8469), (8473, 8477), (8484, 8484), (8486, 8486), (8488, 8488),
   (8490, 8493), (8495, 8505), (8508, 8511), (8517, 8521), (8526, 8526), (8579, 8580),
   (11264, 11492), (11499, 11502), (11506, 11507), (11520, 11557), (11559, 11559), (11565, 11565),
   (11568, 11623), (11631, 11631), (11648, 11670), (11680, 11686), (11688, 11694), (11696, 11702),
   (11704, 11710), (11712, 11718), (11720, 11726), (11728, 11734), (11736, 11742), (11823, 11823),
   (12293, 12294), (12337, 12341), (12347, 12348), (12353, 12438), (12445, 12447), (12449, 12538),
   (12540, 12543), (12549, 12591), (12593, 12686), (12704, 12735), (12784, 12799), (13312, 19903),
   (19968, 42124), (42192, 42237), (42240, 42508), (42512, 42527), (42538, 42539), (42560, 42606),
   (42623, 42653), (42656, 42725), (42775, 42783), (42786, 42888), (42891, 42954), (42960, 42961),
   (42963, 42963), (42965, 42969), (42994, 43009), (43011, 43013), (43015, 43018), (43020, 43042),
   (43072, 43123), (43138, 43187), (43250, 43255), (43259, 43259), (43261, 43262), (43274, 43301),
   (43312, 43334), (43360, 43388), (43396, 43442), (43471, 43471), (43488, 43492), (43494, 43503),
   (43514, 43518), (43520, 43560), (43584, 43586), (43588, 43595), (43616, 43638), (43642, 43642),
   (43646, 43695), (43697, 43697), (43701, 43702), (43705, 43709), (43712, 43712), (43714, 43714),
   (43739, 43741), (43744, 43754), (43762, 43764), (43777, 43782), (43785, 43790), (43793, 43798),
   (43808, 43814), (43816, 43822), (43824, 43866), (43868, 43881), (43888, 44002), (44032, 55203),
   (55216, 55238), (55243, 55291), (63744, 64109), (64112, 64217), (64256, 64262), (64275, 64279),
   (64285, 64285), (64287, 64296), (64298, 64310), (64312, 64316), (64318, 64318), (64320, 64321),
   (64323, 64324), (64326, 64433), (64467, 64829), (64848, 64911), (64914, 64967), (65008, 65019),
   (65136, 65140), (65142, 65276), (65313, 65338), (65345, 65370), (65382, 65470), (65474, 65479),
   (65482, 65487), (65490, 65495), (65498, 65500), (65536, 65547), (65549, 65574), (65576, 65594),
   (65596, 65597), (65599, 65613), (65616, 65629), (65664, 65786), (66176, 66204), (66208, 66256),
   (66304, 66335), (66349, 66368), (66370, 66377), (66384, 66421), (66432, 66461), (66464, 66499),
   (66504, 66511), (66560, 66717), (66736, 66771), (66776, 66811), (66816, 66855), (66864, 66915),
   (66928, 66938), (66940, 66954), (66956, 66962), (66964, 66965), (66967, 66977), (66979, 66993),
   (66995, 67001), (67003, 67004), (67072, 67382), (67392, 67413), (67424, 67431), (67456, 67461),
   (67463, 67504), (67506, 67514), (67584, 67589), (67592, 67592), (67594, 67637), (67639, 67640),
   (67644, 67644), (67647, 67669), (67680, 67702), (67712, 67742), (67808, 67826), (67828, 67829),
   (67840, 67861), (67872, 67897), (67968, 68023), (68030, 68031), (68096, 68096), (68112, 68115),
   (68117, 68119), (68121, 68149), (68192, 68220), (68224, 68252), (68288, 68295), (68297, 68324),
   (68352, 68405), (68416, 68437), (68448, 68466), (68480, 68497), (68608, 68680), (68736, 68786),
   (68800, 68850), (68864, 68899), (69248, 69289), (69296, 69297), (69376, 69404), (69415, 69415),
   (69424, 69445), (69488, 69505), (69552, 69572), (69600, 69622), (69635, 69687), (69745, 69746),
   (69749, 69749), (69763, 69807), (69840, 69864), (69891, 69926), (69956, 69956), (69959, 69959),
   (69968, 70002), (70006, 70006), (70019, 70066), (70081, 70084), (70106, 70106), (70108, 70108),
   (70144, 70161), (70163, 70187), (70272, 70278), (70280, 70280), (70282, 70285), (70287, 70301),
   (70303, 70312), (70320, 70366), (70405, 70412), (70415, 70416), (70419, 70440), (70442, 70448),
   (70450, 70451), (70453, 70457), (70461, 70461), (70480, 70480), (70493, 70497), (70656, 70708),
   (70727, 70730), (70751, 70753), (70784, 70831), (70852, 70853), (70855, 70855), (71040, 71086),
   (71128, 71131), (71168, 71215), (71236, 71236), (71296, 71338), (71352, 71352), (71424, 71450),
   (71488, 71494), (71680, 71723), (71840, 71903), (71935, 71942), (71945, 71945), (71948, 71955),
   (71957, 71958), (71960, 71983), (71999, 71999), (72001, 72001), (72096, 72103), (72106, 72144),
   (72161, 72161), (72163, 72163), (72192, 72192), (72203, 72242), (72250, 72250), (72272, 72272),
   (72284, 72329), (72349, 72349), (72368, 72440), (72704, 72712), (72714, 72750), (72768, 72768),
   (72818, 72847), (72960, 72966), (72968, 72969), (72971, 73008), (73030, 73030), (73056, 73061),
   (73063, 73064), (73066, 73097), (73112, 73112), (73440, 73458), (73648, 73648), (73728, 74649),
   (74880, 75075), (77712, 77808), (77824, 78894), (82944, 83526), (92160, 92728), (92736, 92766),
   (92784, 92862), (92880, 92909), (92928, 92975), (92992, 92995), (93027, 93047), (93053, 93071),
   (93760, 93823), (93952, 94026), (94032, 94032), (94099, 94111), (94176, 94177), (94179, 94179),
   (94208, 100343), (100352, 101589), (101632, 101640), (110576, 110579), (110581, 110587),
   (110589, 110590), (110592, 110882), (110928, 110930), (110948, 110951), (110960, 111355),
   (113664, 113770), (113776, 113788), (113792, 113800), (113808, 113817), (119808, 119892),
   (119894, 119964), (119966, 119967), (119970, 119970), (119973, 119974), (119977, 119980),
   (119982, 119993), (119995, 119995), (119997, 120003), (120005, 120069), (120071, 120074),
   (120077, 120084), (120086, 120092), (120094, 120121), (120123, 120126), (120128, 120132),
   (120134, 120134), (120138, 120144), (120146, 120485), (120488, 120512), (120514, 120538),
   (120540, 120570), (120572, 120596), (120598, 120628), (120630, 120654), (120656, 120686),
   (120688, 120712), (120714, 120744), (120746, 120770), (120772, 120779), (122624, 122654),
   (123136, 123180), (123191, 123197), (123214, 123214), (123536, 123565), (123584, 123627),
   (124896, 124902), (124904, 124907), (124909, 124910), (124912, 124926), (124928, 125124),
   (125184, 125251), (125259, 125259), (126464, 126467), (126469, 126495), (126497, 126498),
   (126500, 126500), (126503, 126503), (126505, 126514), (126516, 126519), (126521, 126521),
   (126523, 126523), (126530, 126530), (126535, 126535), (126537, 126537), (126539, 126539),
   (126541, 126543), (126545, 126546), (126548, 126548), (126551, 126551), (126553, 126553),
   (126555, 126555), (126557, 126557), (126559, 126559), (126561, 126562), (126564, 126564),
   (126567, 126570), (126572, 126578), (126580, 126583), (126585, 126588), (126590, 126590),
   (126592, 126601), (126603, 126619), (126625, 126627), (126629, 126633), (126635, 126651),
   (131072, 173791), (173824, 177976), (177984, 178205), (178208, 183969), (183984, 191456),
   (194560, 195101), (196608, 201546)]

/-- Code point ranges of the Unicode general category Nd (decimal digits), Unicode 14.0.0,
in increasing order; the table behind unicode.IsDigit. -/
def digitRanges : List (Nat × Nat) :=
  [(48, 57), (1632, 1641), (1776, 1785), (1984, 1993), (2406, 2415), (2534, 2543), (2662, 2671),
   (2790, 2799), (2918, 2927), (3046, 3055), (3174, 3183), (3302, 3311), (3430, 3439),
   (3558, 3567), (3664, 3673), (3792, 3801), (3872, 3881), (4160, 4169), (4240, 4249),
   (6112, 6121), (6160, 6169), (6470, 6479), (6608, 6617), (6784, 6793), (6800, 6809),
   (6992, 7001), (7088, 7097), (7232, 7241), (7248, 7257), (42528, 42537), (43216, 43225),
   (43264, 43273), (43472, 43481), (43504, 43513), (43600, 43609), (44016, 44025), (65296, 65305),
   (66720, 66729), (68912, 68921), (69734, 69743), (69872, 69881), (69942, 69951), (70096, 70105),
   (70384, 70393), (70736, 70745), (70864, 70873), (71248, 71257), (71360, 71369), (71472, 71481),
   (71904, 71913), (72016, 72025), (72784, 72793), (73040, 73049), (73120, 73129), (92768, 92777),
   (92864, 92873), (93008, 93017), (120782, 120831), (123200, 123209), (123632, 123641),
   (125264, 125273), (130032, 130041)]

/-- Membership of a code point in a table of increasing, disjoint ranges. -/
def inRanges (n : Nat) : List (Nat × Nat) → Bool
  | [] => false
  | (lo, hi) :: rs => if n < lo then false else if n ≤ hi then true else inRanges n rs

/-- The predicate unicode.IsLetter: the code point has general category L. -/
def isLetter (c : Char) : Bool := inRanges c.toNat letterRanges

/-- The predicate unicode.IsDigit: the code point has general category Nd. -/
def isDigit (c : Char) : Bool := inRanges c.toNat digitRanges

/-- First character of a Go identifier: a Unicode letter or the underscore. -/
def isIdentStart (c : Char) : Bool := isLetter c || c == '_'

/-- Later character of a Go identifier: a letter, the underscore or a Unicode digit. -/
def isIdentPart (c : Char) : Bool := isIdentStart c || isDigit c

/-- Go identifiers: identifier = letter followed by letters and unicode digits. -/
def isIdentifier : List Char → Bool
  | [] => false
  | c :: cs => isIdentStart c && cs.all isIdentPart

/-! ## Strings -/

/-- Number of bytes of the UTF-8 encoding of a code point. -/
def runeLen (c : Char) : Nat :=
  if c.toNat < 0x80 then 1 else if c.toNat < 0x800 then 2 else if c.toNat < 0x10000 then 3 else 4

/-- Go builtin len on a string: its length in bytes. -/
def len : List Char → Nat
  | [] => 0
  | c :: cs => runeLen c + len cs

/-- Scan of strings.Count for a non-empty substr: skip counts the characters of the
instance found last that are still to be passed, so that instances do not overlap. -/
def countFrom (substr : List Char) : List Char → Nat → Nat
  | [], _ => 0
  | _ :: cs, skip + 1 => countFrom substr cs skip
  | c :: cs, 0 =>
    if substr.isPrefixOf (c :: cs) then 1 + countFrom substr cs (substr.length - 1)
    else countFrom substr cs 0

/-- Go strings.Count: the number of non-overlapping instances of substr in s; for the
empty substr, one more than the number of code points of s. -/
def Count (s substr : List Char) : Nat :=
  if substr = [] then s.length + 1 else countFrom substr s 0

/-! ## Outcomes -/

/-- Result of running a piece of Go code in the embedding. -/
inductive Outcome (α : Type) where
  | ok (a : α)
  | panic
  | unmodelled
  deriving DecidableEq, Repr

/-! ## Regular expressions (fragment of regexp/syntax) -/

/-- Abstract syntax of the regular expressions of the fragment. -/
inductive Regex where
  | empty
  | lit (c : Char)
  | notLetter
  | anyNotNL
  | endText
  | seq (a b : Regex)
  | alt (a b : Regex)
  deriving DecidableEq, Repr

/-- Concatenation of a list of expressions, in order. -/
def catOf (rs : List Regex) : Regex := rs.foldr Regex.seq Regex.empty

/-- Alternation of a non-empty list of expressions, the first one preferred. -/
def altOf : List Regex → Regex
  | [] => Regex.empty
  | [r] => r
  | r :: r2 :: rs => Regex.alt r (altOf (r2 :: rs))

/-- Parser state for one open group: the alternatives already closed by a vertical bar and
the atoms of the concatenation being read. -/
structure Frame where
  done : List Regex
  cur : List Regex
  deriving DecidableEq, Repr

/-- Adds an atom to the concatenation being read. -/
def Frame.push (f : Frame) (r : Regex) : Frame := { f with cur := f.cur ++ [r] }

/-- Closes the concatenation being read at a vertical bar. -/
def Frame.bar (f : Frame) : Frame := { done := f.done ++ [catOf f.cur], cur := [] }

/-- The expression of a group once it is complete. -/
def Frame.finish (f : Frame) : Regex := altOf (f.done ++ [catOf f.cur])

/-- Characters with a special meaning in a pattern. -/
def isMeta (c : Char) : Bool :=
  c == '|' || c == '(' || c == ')' || c == '$' || c == '.' || c == '[' || c == '\\' ||
  c == '*' || c == '+' || c == '?' || c == '{' || c == '^'

/-- ASCII letter or digit, the characters that are not taken literally after a backslash. -/
def isAlnum (c : Char) : Bool :=
  ('0' ≤ c && c ≤ '9') || ('A' ≤ c && c ≤ 'Z') || ('a' ≤ c && c ≤ 'z')

/-- What the parser has just read: nothing special, an opening parenthesis, a backslash,
or the start of a bracket class of which the listed characters are still expected. -/
inductive Mode where
  | normal
  | afterParen
  | escape
  | cls (expect : List Char)
  deriving DecidableEq, Repr

/-- The parser of regexp/syntax on the fragment: literals, escaped punctuation, the class
[\PL], the dot, the dollar, alternation and capturing groups. It reads one character at a
time; the stack holds the frames of the enclosing open groups. A syntax error is the outcome
panic (MustCompile panics on it); syntax outside the fragment (repetition, other classes and
escapes, flags after an opening parenthesis, the caret) is unmodelled. -/
def parse : List Char → Mode → List Frame → Frame → Outcome Regex
  | [], .normal, [], f => .ok f.finish
  | [], _, _, _ => .panic
  | c :: rest, .escape, stack, f =>
    if c.toNat < 0x80 && !isAlnum c then parse rest .normal stack (f.push (.lit c))
    else .unmodelled
  | _ :: _, .cls [], _, _ => .unmodelled
  | c :: rest, .cls [e], stack, f =>
    if c = e then parse rest .normal stack (f.push .notLetter) else .unmodelled
  | c :: rest, .cls (e :: e2 :: es), stack, f =>
    if c = e then parse rest (.cls (e2 :: es)) stack f else .unmodelled
  | c :: rest, mode, stack, f =>
    if mode = .afterParen ∧ c = '?' then .unmodelled
    else if c = '|' then parse rest .normal stack f.bar
    else if c = '(' then parse rest .afterParen (f :: stack) ⟨[], []⟩
    else if c = ')' then
      match stack with
      | [] => .panic
      | p :: stack2 => parse rest .normal stack2 (p.push f.finish)
    else if c = '$' then parse rest .normal stack (f.push .endText)
    else if c = '.' then parse rest .normal stack (f.push .anyNotNL)
    else if c = '[' then parse rest (.cls ['\\', 'P', 'L', ']']) stack f
    else if c = '\\' then parse rest .escape stack f
    else if isMeta c then .unmodelled
    else parse rest .normal stack (f.push (.lit c))

/-- Go regexp.MustCompile: the compiled expression, or a panic on a syntax error. -/
def MustCompile (pattern : List Char) : Outcome Regex := parse pattern .normal [] ⟨[], []⟩

/-- All the ways an expression matches at the start of s, as the remaining input after the
match, in the order of preference of a leftmost-first (backtracking) matcher. -/
def ends : Regex → List Char → List (List Char)
  | .empty, s => [s]
  | .lit c, s => match s with
    | d :: t => if d = c then [t] else []
    | [] => []
  | .notLetter, s => match s with
    | d :: t => if isLetter d then [] else [t]
    | [] => []
  | .anyNotNL, s => match s with
    | d :: t => if d = '\n' then [] else [t]
    | [] => []
  | .endText, s => if s = [] then [[]] else []
  | .seq a b, s => (ends a s).flatMap (ends b)
  | .alt a b, s => ends a s ++ ends b s

/-- One unanchored leftmost-first search (doExecute) in the input s that starts at byte
offset pos: the byte offsets of the start and the end of the match found, and the input
that remains after it. -/
def search (re : Regex) : Nat → List Char → Option (Nat × Nat × List Char)
  | pos, [] => match ends re [] with
    | [] => none
    | _ :: _ => some (pos, pos, [])
  | pos, c :: cs => match ends re (c :: cs) with
    | [] => search re (pos + runeLen c) cs
    | rest :: _ => some (pos, pos + (len (c :: cs) - len rest), rest)

/-- A compiled expression (type regexp.Regexp) as FindAllStringIndex uses it: its
unanchored leftmost-first search doExecute. For a text, a byte offset pos of the text and
the input s that remains from pos on, it gives the byte offsets of the start and the end of
the match found and the input that remains after the match. Any expression, also one
outside the fragment parsed here, is such a search. -/
structure Regexp where
  doExecute : List Char → Nat → List Char → Option (Nat × Nat × List Char)

/-- The compiled form of an expression of the fragment: its search does not depend on the
text before pos. -/
def Regex.compiled (re : Regex) : Regexp := ⟨fun _ => search re⟩

/-- The loop of allMatches in regexp.go over the search exec of a compiled expression: n
is the number of matches still wanted, pos and s the current byte offset and the input from
there, prevMatchEnd the end of the previous match. For the search of an expression of the
fragment every round moves pos forward, so a budget of one round per remaining code point,
plus one, is never used up. -/
def allMatches (exec : Nat → List Char → Option (Nat × Nat × List Char)) :
    Nat → Nat → Nat → List Char → Option Nat → List (Nat × Nat)
  | 0, _, _, _, _ => []
  | budget + 1, n, pos, s, prevMatchEnd =>
    if n = 0 then []
    else match exec pos s with
      | none => []
      | some (b, e, rest) =>
        if e = pos then
          let accept := decide (some b ≠ prevMatchEnd)
          match s with
          | [] => if accept then [(b, e)] else []
          | c :: cs =>
            if accept then
              (b, e) :: allMatches exec budget (n - 1) (pos + runeLen c) cs (some e)
            else allMatches exec budget n (pos + runeLen c) cs (some e)
        else (b, e) :: allMatches exec budget (n - 1) e rest (some e)

/-- Go FindAllStringIndex for n ≥ 0: the byte index pairs of at most n successive
non-overlapping matches. -/
def FindAllStringIndex (re : Regexp) (s : List Char) (n : Nat) : List (Nat × Nat) :=
  allMatches (re.doExecute s) (s.length + 1) n 0 s none

/-! ## text.Extent and the comments of a file -/

/-- Type text.Extent: a byte range of a file. -/
structure Extent where
  offset : Nat
  length : Nat
  deriving DecidableEq, Repr

/-- Type ast.Comment: the text of a comment, comment marker included, and the file offset
of its first character, i.e. fset.Position(Slash).Offset. -/
structure Comment where
  Slash : Nat
  Text : List Char
  deriving DecidableEq, Repr

/-- Type ast.CommentGroup: a run of comments. -/
structure CommentGroup where
  List : List Comment
  deriving DecidableEq, Repr

/-- Type ast.File, reduced to its comment groups. -/
structure File where
  Comments : List CommentGroup
  deriving DecidableEq, Repr

/-! ## FindInComments -/

/-- The pattern built by fmt.Sprintf in FindInComments: the name is inserted as it is. -/
def regexpstring (name : List Char) : List Char :=
  "[\\PL]".toList ++ name ++ "[\\PL]|//".toList ++ name ++ "[\\PL]|/\\*".toList ++ name ++
    "[\\PL]|[\\PL]".toList ++ name ++ "$".toList

/-- The extent appended for one match idx of the pattern. -/
def extentOf (name : List Char) (slashIdx whitespaceIdx : Nat) (idx : Nat × Nat) : Extent :=
  if idx.1 = 0 then ⟨slashIdx + idx.1 + whitespaceIdx + 1, len name⟩
  else ⟨slashIdx + idx.1 + whitespaceIdx, len name⟩

/-- Body of the outer loop of FindInComments for one comment group: the extents it appends
to the result. Only the first comment of the group is read. The function compile stands
for regexp.MustCompile followed by the construction of the matcher. -/
def scanGroup (compile : List Char → Outcome Regexp) (name : List Char)
    (comment : CommentGroup) : Outcome (List Extent) :=
  match comment.List with
  | [] => .panic
  | c0 :: _ =>
    let slashIdx := c0.Slash
    let whitespaceIdx := 1
    match compile (regexpstring name) with
    | .panic => .panic
    | .unmodelled => .unmodelled
    | .ok re =>
      let matchcount := Count c0.Text name
      .ok ((FindAllStringIndex re c0.Text matchcount).map (extentOf name slashIdx whitespaceIdx))

/-- The outer loop of FindInComments over the comment groups still to visit. -/
def findLoop (compile : List Char → Outcome Regexp) (name : List Char) :
    List CommentGroup → List Extent → Outcome (List Extent)
  | [], result => .ok result
  | comment :: more, result =>
    match scanGroup compile name comment with
    | .ok found => findLoop compile name more (result ++ found)
    | .panic => .panic
    | .unmodelled => .unmodelled

/-- Function FindInComments of analysis/names/comments.go, for an arbitrary behaviour
compile of the regexp library on the pattern. -/
def FindInCommentsWith (compile : List Char → Outcome Regexp) (name : List Char) (f : File) :
    Outcome (List Extent) :=
  findLoop compile name f.Comments []

/-- The compile function modelled here: MustCompile on the fragment, then the matcher of
the expression obtained. -/
def compileModel (pattern : List Char) : Outcome Regexp :=
  match MustCompile pattern with
  | .ok re => .ok re.compiled
  | .panic => .panic
  | .unmodelled => .unmodelled

/-- Function FindInComments of analysis/names/comments.go with the regexp library as
modelled here. -/
def FindInComments (name : List Char) (f : File) : Outcome (List Extent) :=
  FindInCommentsWith compileModel name f

/-- The expression that the pattern of FindInComments denotes when the name is taken
literally, character by character. -/
def wordPattern (name : List Char) : Regex :=
  .alt (catOf ([.notLetter] ++ name.map .lit ++ [.notLetter]))
    (.alt (catOf ([.lit '/', .lit '/'] ++ name.map .lit ++ [.notLetter]))
      (.alt (catOf ([.lit '/', .lit '*'] ++ name.map .lit ++ [.notLetter]))
        (catOf ([.notLetter] ++ name.map .lit ++ [.endText]))))

/-- Well-formed comment text: go/ast keeps the comment marker, so the text of a comment
starts with two slashes or with slash star. -/
def isCommentText (text : List Char) : Bool :=
  "//".toList.isPrefixOf text || "/*".toList.isPrefixOf text

/-- A letter stands right before an occurrence whose left context is a. -/
def letterBefore (a : List Char) : Bool :=
  match a.getLast? with
  | some c => isLetter c
  | none => false

/-- A letter stands right after an occurrence whose right context is b. -/
def letterAfter (b : List Char) : Bool :=
  match b.head? with
  | some c => isLetter c
  | none => false

/-- No extent found in the comment c0 sits on an occurrence of the name that has a letter
as its left or right neighbour: for every split of the text around an occurrence at byte
index len a with such a neighbour, no extent has the offset Slash + len a. -/
def NeverInsideWord (name : List Char) (c0 : Comment) (exts : List Extent) : Prop :=
  ∀ a b, c0.Text = a ++ name ++ b → (letterBefore a = true ∨ letterAfter b = true) →
    ∀ e ∈ exts, e.offset ≠ c0.Slash + len a

/-- The extent e comes from a match of the pattern in the comment c0 that is bounded: a
non-letter character or a comment marker on the left, then the name, then a non-letter
character or the end of the text on the right. -/
def BoundedMatch (name : List Char) (c0 : Comment) (e : Extent) : Prop :=
  ∃ pre left right, c0.Text = pre ++ left ++ name ++ right ∧
    ((∃ c, left = [c] ∧ isLetter c = false) ∨ left = ['/', '/'] ∨ left = ['/', '*']) ∧
    letterAfter right = false ∧
    e.offset = c0.Slash + len pre + (if pre = [] then 2 else 1)

/-- The sum of strings.Count over the first comments of the groups of a file. -/
def countSum (name : List Char) (groups : List CommentGroup) : Nat :=
  (groups.map fun g => match g.List with
    | c0 :: _ => Count c0.Text name
    | [] => 0).sum

/-- The part of a string from byte index p on, the Go slice s[p:], when p is the index
of a character boundary; none when p falls inside the encoding of a character or beyond
the end. -/
def dropBytes : Nat → List Char → Option (List Char)
  | 0, s => some s
  | _ + 1, [] => none
  | p + 1, c :: cs => if runeLen c ≤ p + 1 then dropBytes (p + 1 - runeLen c) cs else none

/-! ## The debug refactoring (refactoring/debug.go) -/

/-- The two operations of the refactoring log that showAffected and showReferences call.
The log type is declared outside the files at hand, so it is a parameter L, and so are
these operations. -/
structure LogOps (L : Type) where
  Error : L → String → L
  AssociatePos : L → Nat → Nat → L

/-- An ast.Node as far as the type switch on the selection tells nodes apart: an
identifier, with its name and the identity of the node, or any other node. -/
inductive Node where
  | Ident (Name : String) (id : Nat)
  | Other
  deriving DecidableEq, Repr

/-- What the two commands obtain from the loaded program and the packages outside the
files at hand: for an identifier node, the line formatted for each object that
names.FindDeclarationsAcrossInterfaces returns and the description formatted for each
occurrence that names.FindOccurrences returns (both in map iteration order), and the text
that fmt.Fprintf writes for a format string without arguments. -/
structure Program where
  affectedLines : Nat → List String
  referenceLines : Nat → List String
  Fprintf0 : String → String

/-- The fields of the Debug refactoring read by the two commands. -/
structure Debug (L : Type) where
  Log : L
  selectedNode : Option Node
  selectionStart : Nat
  selectionEnd : Nat
  program : Program

/-- Go string comparison a < b: lexicographic order of the bytes, which for UTF-8 is the
lexicographic order of the code points. -/
def lexLess : List Char → List Char → Bool
  | [], [] => false
  | [], _ :: _ => true
  | _ :: _, [] => false
  | a :: as, b :: bs =>
    if a.toNat < b.toNat then true else if b.toNat < a.toNat then false else lexLess as bs

/-- Insertion of a string into a sorted list of strings. -/
def insertString (x : String) : List String → List String
  | [] => [x]
  | y :: ys => if lexLess x.toList y.toList then x :: y :: ys else y :: insertString x ys

/-- Go sort.Strings: the strings in increasing order. -/
def sortStrings (xs : List String) : List String := xs.foldr insertString []

/-- Method showAffected of the Debug refactoring: the new log and the new content of the
writer out, as the list of the texts written to it. -/
def showAffected {L : Type} (ops : LogOps L) (r : Debug L) (out : List String) :
    L × List String :=
  let errorMsg := "Please select an identifier for showaffected"
  match r.selectedNode with
  | none => (ops.AssociatePos (ops.Error r.Log errorMsg) r.selectionStart r.selectionEnd, out)
  | some (.Ident _ id) =>
    let out1 := out ++ ["Affected Declarations:\n"]
    let result := sortStrings (r.program.affectedLines id)
    (r.Log, out1 ++ result.map r.program.Fprintf0)
  | some .Other =>
    (ops.AssociatePos (ops.Error r.Log errorMsg) r.selectionStart r.selectionEnd, out)

/-- Method showReferences of the Debug refactoring: the new log and the new content of the
writer out. -/
def showReferences {L : Type} (ops : LogOps L) (r : Debug L) (out : List String) :
    L × List String :=
  let errorMsg := "Please select an identifier for showreferences"
  match r.selectedNode with
  | none => (ops.AssociatePos (ops.Error r.Log errorMsg) r.selectionStart r.selectionEnd, out)
  | some (.Ident name id) =>
    let out1 := out ++ ["References to " ++ name ++ ":\n"]
    let strs := sortStrings (r.program.referenceLines id)
    (r.Log, out1 ++ strs.map fun s => s ++ "\n")
  | some .Other =>
    (ops.AssociatePos (ops.Error r.Log errorMsg) r.selectionStart r.selectionEnd, out)

/-- A simple log for examples: the entries in order, each a message with the position
associated with it, if any. -/
def listLog : LogOps (List (String × Option (Nat × Nat))) where
  Error := fun log msg => log ++ [(msg, none)]
  AssociatePos := fun log start stop =>
    match log.reverse with
    | [] => []
    | (msg, _) :: earlier => (earlier.reverse) ++ [(msg, some (start, stop))]

/-- A program without declarations or occurrences, for examples. -/
def emptyProgram : Program where
  affectedLines := fun _ => []
  referenceLines := fun _ => []
  Fprintf0 := fun s => s

/-! ## Lemmas on the pattern parser -/

theorem isMeta_false_iff (c : Char) : isMeta c = false ↔
    c ≠ '|' ∧ c ≠ '(' ∧ c ≠ ')' ∧ c ≠ '$' ∧ c ≠ '.' ∧ c ≠ '[' ∧ c ≠ '\\' ∧
    c ≠ '*' ∧ c ≠ '+' ∧ c ≠ '?' ∧ c ≠ '{' ∧ c ≠ '^' := by
  simp [isMeta, and_assoc]

theorem parse_lit_cons (c : Char) (hc : isMeta c = false) (rest : List Char)
    (stack : List Frame) (f : Frame) :
    parse (c :: rest) .normal stack f = parse rest .normal stack (f.push (.lit c)) := by
  obtain ⟨h1, h2, h3, h4, h5, h6, h7, -⟩ := (isMeta_false_iff c).1 hc
  simp [parse, h1, h2, h3, h4, h5, h6, h7, hc]

theorem parse_lits (name : List Char) (hname : ∀ c ∈ name, isMeta c = false) :
    ∀ (rest : List Char) (stack : List Frame) (f : Frame),
      parse (name ++ rest) .normal stack f =
        parse rest .normal stack ⟨f.done, f.cur ++ name.map .lit⟩ := by
  induction name with
  | nil => intro rest stack f; simp
  | cons c cs ih =>
    intro rest stack f
    have hc := hname c (List.mem_cons_self _ _)
    have hcs : ∀ d ∈ cs, isMeta d = false := fun d hd => hname d (List.mem_cons_of_mem _ hd)
    rw [List.cons_append, parse_lit_cons c hc, ih hcs]
    simp [Frame.push]

theorem MustCompile_regexpstring (name : List Char) (hname : ∀ c ∈ name, isMeta c = false) :
    MustCompile (regexpstring name) = .ok (wordPattern name) := by
  unfold MustCompile regexpstring
  simp only [String.toList, List.append_assoc, List.cons_append, List.nil_append]
  have hs : isMeta '/' = false := by decide
  simp [parse, parse_lits name hname, parse_lit_cons '/' hs, Frame.push, Frame.bar, Frame.finish,
    altOf, wordPattern, isAlnum]
  simp [hs]

theorem isMeta_of_isIdentPart (c : Char) (h : isIdentPart c = true) : isMeta c = false := by
  rw [isMeta_false_iff]
  refine ⟨?_, ?_, ?_, ?_, ?_, ?_, ?_, ?_, ?_, ?_, ?_, ?_⟩ <;>
    (intro hc; subst hc; revert h; decide)

theorem isIdentifier_noMeta (name : List Char) (h : isIdentifier name = true) :
    ∀ c ∈ name, isMeta c = false := by
  cases name with
  | nil => simp
  | cons c cs =>
    simp only [isIdentifier, Bool.and_eq_true, List.all_eq_true] at h
    intro d hd
    rcases List.mem_cons.1 hd with rfl | hd
    · exact isMeta_of_isIdentPart _ (by simp [isIdentPart, h.1])
    · exact isMeta_of_isIdentPart _ (h.2 d hd)

theorem runeLen_pos (c : Char) : 1 ≤ runeLen c := by
  unfold runeLen; split_ifs <;> omega

theorem len_append (a b : List Char) : len (a ++ b) = len a + len b := by
  induction a with
  | nil => simp [len]
  | cons c cs ih => simp [len, ih, Nat.add_assoc]

theorem len_eq_zero {a : List Char} (h : len a = 0) : a = [] := by
  cases a with
  | nil => rfl
  | cons c cs => have := runeLen_pos c; simp [len] at h; omega

theorem append_inj_len : ∀ (a b x y : List Char), a ++ x = b ++ y → len a = len b →
    a = b ∧ x = y := by
  intro a
  induction a with
  | nil =>
    intro b x y h hl
    have : b = [] := len_eq_zero (by simpa [len] using hl.symm)
    subst this; exact ⟨rfl, by simpa using h⟩
  | cons c cs ih =>
    intro b x y h hl
    cases b with
    | nil => have := runeLen_pos c; simp [len] at hl; omega
    | cons d ds =>
      simp only [List.cons_append, List.cons.injEq] at h
      obtain ⟨rfl, h⟩ := h
      simp only [len] at hl
      obtain ⟨rfl, rfl⟩ := ih ds x y h (by omega)
      exact ⟨rfl, rfl⟩

theorem len_boundary (pre a x y : List Char) (c : Char) (h : a ++ y = pre ++ c :: x)
    (hl : len pre < len a) : len pre + runeLen c ≤ len a := by
  rcases List.append_eq_append_iff.1 h with ⟨m, hm, hy⟩ | ⟨m, hm, hx⟩
  · subst hm; rw [len_append] at hl; omega
  · subst hm
    cases m with
    | nil => simp at hl
    | cons d ds =>
      simp only [List.cons_append, List.cons.injEq] at hx
      obtain ⟨rfl, -⟩ := hx
      simp [len_append, len]

/-! ## Lemmas on matching -/

theorem ends_suffix (re : Regex) : ∀ (s r : List Char), r ∈ ends re s → ∃ m, s = m ++ r := by
  induction re with
  | empty => intro s r h; simp [ends] at h; exact ⟨[], by simp [h]⟩
  | lit c =>
    intro s r h
    cases s with
    | nil => simp [ends] at h
    | cons d t =>
      by_cases hd : d = c
      · simp [ends, hd] at h; exact ⟨[d], by simp [h]⟩
      · simp [ends, hd] at h
  | notLetter =>
    intro s r h
    cases s with
    | nil => simp [ends] at h
    | cons d t =>
      by_cases hd : isLetter d = true
      · simp [ends, hd] at h
      · simp [ends, hd] at h; exact ⟨[d], by simp [h]⟩
  | anyNotNL =>
    intro s r h
    cases s with
    | nil => simp [ends] at h
    | cons d t =>
      by_cases hd : d = '\n'
      · simp [ends, hd] at h
      · simp [ends, hd] at h; exact ⟨[d], by simp [h]⟩
  | endText =>
    intro s r h
    by_cases hs : s = []
    · simp [ends, hs] at h; exact ⟨[], by simp [h, hs]⟩
    · simp [ends, hs] at h
  | seq a b iha ihb =>
    intro s r h
    simp only [ends, List.mem_flatMap] at h
    obtain ⟨t, ht, hr⟩ := h
    obtain ⟨m1, rfl⟩ := iha s t ht
    obtain ⟨m2, rfl⟩ := ihb t r hr
    exact ⟨m1 ++ m2, by simp⟩
  | alt a b iha ihb =>
    intro s r h
    simp only [ends, List.mem_append] at h
    rcases h with h | h
    · exact iha s r h
    · exact ihb s r h

theorem mem_ends_notLetter (s r : List Char) :
    r ∈ ends .notLetter s ↔ ∃ c, isLetter c = false ∧ s = c :: r := by
  cases s with
  | nil => simp [ends]
  | cons d t =>
    by_cases hd : isLetter d = true
    · simp [ends, hd]
      intro c hc h1 _
      subst h1; simp [hd] at hc
    · simp only [Bool.not_eq_true] at hd
      simp [ends, hd]
      constructor
      · intro h; exact ⟨d, hd, rfl, h.symm⟩
      · rintro ⟨c, -, -, h⟩; exact h.symm

theorem mem_ends_lit (c : Char) (s r : List Char) : r ∈ ends (.lit c) s ↔ s = c :: r := by
  cases s with
  | nil => simp [ends]
  | cons d t =>
    by_cases hd : d = c
    · subst hd; simp [ends]; exact eq_comm
    · simp [ends, hd]

theorem mem_ends_catOf_cons (a : Regex) (rs : List Regex) (s r : List Char) :
    r ∈ ends (catOf (a :: rs)) s ↔ ∃ t, t ∈ ends a s ∧ r ∈ ends (catOf rs) t := by
  simp [catOf, ends, List.mem_flatMap]

theorem mem_ends_catOf_lits (name : List Char) (rs : List Regex) :
    ∀ (s r : List Char), r ∈ ends (catOf (name.map .lit ++ rs)) s ↔
      ∃ t, s = name ++ t ∧ r ∈ ends (catOf rs) t := by
  induction name with
  | nil => intro s r; simp
  | cons c cs ih =>
    intro s r
    simp only [List.map_cons, List.cons_append, mem_ends_catOf_cons, mem_ends_lit, ih]
    constructor
    · rintro ⟨t, rfl, u, rfl, hu⟩; exact ⟨u, rfl, hu⟩
    · rintro ⟨u, rfl, hu⟩; exact ⟨cs ++ u, rfl, u, rfl, hu⟩

theorem mem_ends_alt (a b : Regex) (s r : List Char) :
    r ∈ ends (.alt a b) s ↔ r ∈ ends a s ∨ r ∈ ends b s := by
  simp [ends]

theorem mem_ends_catOf_nil (s r : List Char) : r ∈ ends (catOf []) s ↔ r = s := by
  simp [catOf, ends]

theorem mem_ends_endText (s r : List Char) : r ∈ ends .endText s ↔ s = [] ∧ r = [] := by
  by_cases hs : s = []
  · simp [ends, hs]
  · simp [ends, hs]

/-- The four ways the pattern of a literal name matches at the start of s. -/
theorem mem_ends_wordPattern (name s r : List Char) :
    r ∈ ends (wordPattern name) s ↔
      (∃ c d, isLetter c = false ∧ isLetter d = false ∧ s = c :: (name ++ d :: r)) ∨
      (∃ d, isLetter d = false ∧ s = '/' :: '/' :: (name ++ d :: r)) ∨
      (∃ d, isLetter d = false ∧ s = '/' :: '*' :: (name ++ d :: r)) ∨
      (∃ c, isLetter c = false ∧ s = c :: name ∧ r = []) := by
  simp only [wordPattern, List.cons_append, List.nil_append, mem_ends_alt,
    mem_ends_catOf_cons, mem_ends_catOf_lits, mem_ends_notLetter, mem_ends_lit,
    mem_ends_catOf_nil, mem_ends_endText]
  constructor
  · rintro (⟨t, ⟨c, hc, rfl⟩, u, rfl, v, ⟨d, hd, rfl⟩, rfl⟩ |
      ⟨t, rfl, t2, rfl, u, rfl, v, ⟨d, hd, rfl⟩, rfl⟩ |
      ⟨t, rfl, t2, rfl, u, rfl, v, ⟨d, hd, rfl⟩, rfl⟩ |
      ⟨t, ⟨c, hc, rfl⟩, u, rfl, v, ⟨rfl, rfl⟩, rfl⟩)
    · exact Or.inl ⟨c, d, hc, hd, rfl⟩
    · exact Or.inr (Or.inl ⟨d, hd, rfl⟩)
    · exact Or.inr (Or.inr (Or.inl ⟨d, hd, rfl⟩))
    · exact Or.inr (Or.inr (Or.inr ⟨c, hc, by simp, rfl⟩))
  · rintro (⟨c, d, hc, hd, rfl⟩ | ⟨d, hd, rfl⟩ | ⟨d, hd, rfl⟩ | ⟨c, hc, rfl, rfl⟩)
    · exact Or.inl ⟨_, ⟨c, hc, rfl⟩, _, rfl, _, ⟨d, hd, rfl⟩, rfl⟩
    · exact Or.inr (Or.inl ⟨_, rfl, _, rfl, _, rfl, _, ⟨d, hd, rfl⟩, rfl⟩)
    · exact Or.inr (Or.inr (Or.inl ⟨_, rfl, _, rfl, _, rfl, _, ⟨d, hd, rfl⟩, rfl⟩))
    · exact Or.inr (Or.inr (Or.inr ⟨_, ⟨c, hc, rfl⟩, [], by simp, [], ⟨rfl, rfl⟩, rfl⟩))

/-! ## Lemmas on the search loop -/

theorem search_sound (re : Regex) : ∀ (s : List Char) (pos b e : Nat) (rest : List Char),
    search re pos s = some (b, e, rest) →
    ∃ pre suf, s = pre ++ suf ∧ b = pos + len pre ∧ rest ∈ ends re suf ∧
      e = b + (len suf - len rest) := by
  intro s
  induction s with
  | nil =>
    intro pos b e rest h
    unfold search at h
    split at h
    · simp at h
    · rename_i x xs hx
      simp at h
      obtain ⟨rfl, rfl, rfl⟩ := h
      have hm : ([] : List Char) ∈ ends re [] := by
        have h1 : x ∈ ends re [] := by rw [hx]; exact List.mem_cons_self _ _
        obtain ⟨m, hm⟩ := ends_suffix re [] x h1
        have : x = [] := by
          have := congrArg List.length hm
          simp at this
          exact List.length_eq_zero.1 (by omega)
        rwa [this] at h1
      exact ⟨[], [], rfl, by simp [len], hm, by simp⟩
  | cons c cs ih =>
    intro pos b e rest h
    unfold search at h
    split at h
    · obtain ⟨pre, suf, h1, h2, h3, h4⟩ := ih _ b e rest h
      exact ⟨c :: pre, suf, by simp [h1], by simp [len, h2]; omega, h3, h4⟩
    · rename_i x xs hx
      simp at h
      obtain ⟨rfl, rfl, rfl⟩ := h
      exact ⟨[], c :: cs, rfl, by simp [len], by rw [hx]; exact List.mem_cons_self _ _, rfl⟩

/-- Every match reported by the loop starts at a byte offset of the text where the
expression matches. -/
theorem allMatches_sound (re : Regex) (text : List Char) :
    ∀ (budget n pos : Nat) (s : List Char) (prev : Option Nat) (pre0 : List Char),
      text = pre0 ++ s → pos = len pre0 →
      ∀ be ∈ allMatches (search re) budget n pos s prev,
        ∃ pre suf rest, text = pre ++ suf ∧ be.1 = len pre ∧ rest ∈ ends re suf := by
  intro budget
  induction budget with
  | zero => intro n pos s prev pre0 _ _ be h; simp [allMatches] at h
  | succ k ih =>
    intro n pos s prev pre0 ht hp be h
    unfold allMatches at h
    split at h
    · simp at h
    · split at h
      · simp at h
      · rename_i b e rest hs
        obtain ⟨p, suf, h1, h2, h3, h4⟩ := search_sound re s pos b e rest hs
        obtain ⟨m, hm⟩ := ends_suffix re suf rest h3
        have hfound : ∃ pre suf rest, text = pre ++ suf ∧ (b, e).1 = len pre ∧
            rest ∈ ends re suf :=
          ⟨pre0 ++ p, suf, rest, by simp [ht, h1], by simp [len_append, h2, hp], h3⟩
        split at h
        · -- empty match at pos
          split at h
          · dsimp only at h
            split at h
            · simp at h; subst h; exact hfound
            · simp at h
          · rename_i c cs
            dsimp only at h
            split at h
            · rcases List.mem_cons.1 h with h | h
              · subst h; exact hfound
              · exact ih _ _ cs _ (pre0 ++ [c]) (by simp [ht]) (by simp [len_append, len, hp]) be h
            · exact ih _ _ cs _ (pre0 ++ [c]) (by simp [ht]) (by simp [len_append, len, hp]) be h
        · rcases List.mem_cons.1 h with h | h
          · subst h; exact hfound
          · refine ih _ _ rest _ (pre0 ++ p ++ m) (by simp [ht, h1, hm]) ?_ be h
            rw [h4, h2, hp, hm]
            simp [len_append]
            omega

theorem allMatches_length (exec : Nat → List Char → Option (Nat × Nat × List Char)) :
    ∀ (budget n pos : Nat) (s : List Char) (prev : Option Nat),
      (allMatches exec budget n pos s prev).length ≤ n := by
  intro budget
  induction budget with
  | zero => intro n pos s prev; simp [allMatches]
  | succ k ih =>
    intro n pos s prev
    unfold allMatches
    split
    · simp
    · rename_i hn
      split
      · simp
      · split
        · split
          · dsimp only
            split <;> simp
            omega
          · rename_i b e rest _ _ c cs _
            dsimp only
            split
            · have := ih (n - 1) (pos + runeLen c) cs (some e)
              simp only [List.length_cons]
              omega
            · exact ih _ _ _ _
        · rename_i b e rest _ _
          have := ih (n - 1) e rest (some e)
          simp only [List.length_cons]
          omega

/-! ## Lemmas on FindInComments -/

theorem scanGroup_ok (compile : List Char → Outcome Regexp) (name : List Char) (c0 : Comment)
    (rest : List Comment) (re : Regexp) (hre : compile (regexpstring name) = .ok re) :
    scanGroup compile name ⟨c0 :: rest⟩ =
      .ok ((FindAllStringIndex re c0.Text (Count c0.Text name)).map (extentOf name c0.Slash 1)) := by
  simp [scanGroup, hre]

theorem scanGroup_inv (compile : List Char → Outcome Regexp) (name : List Char)
    (g : CommentGroup) (exts : List Extent) (h : scanGroup compile name g = .ok exts) :
    ∃ c0 rest re, g.List = c0 :: rest ∧ compile (regexpstring name) = .ok re ∧
      exts = (FindAllStringIndex re c0.Text (Count c0.Text name)).map (extentOf name c0.Slash 1) := by
  unfold scanGroup at h
  split at h
  · simp at h
  · rename_i c0 rest hl
    dsimp only at h
    split at h
    · simp at h
    · simp at h
    · rename_i re hre
      simp at h
      exact ⟨c0, rest, re, hl, hre, h.symm⟩

theorem findLoop_inv (compile : List Char → Outcome Regexp) (name : List Char) :
    ∀ (groups : List CommentGroup) (result r : List Extent),
      findLoop compile name groups result = .ok r →
      ∃ per : List (List Extent), r = result ++ per.flatten ∧
        List.Forall₂ (fun g exts => scanGroup compile name g = .ok exts) groups per := by
  intro groups
  induction groups with
  | nil =>
    intro result r h
    simp [findLoop] at h
    exact ⟨[], by simp [h], List.Forall₂.nil⟩
  | cons g gs ih =>
    intro result r h
    unfold findLoop at h
    split at h
    · rename_i found hf
      obtain ⟨per, hr, hall⟩ := ih _ _ h
      exact ⟨found :: per, by simp [hr], List.Forall₂.cons hf hall⟩
    · simp at h
    · simp at h

theorem findLoop_ok (compile : List Char → Outcome Regexp) (name : List Char) :
    ∀ (groups : List CommentGroup) (result : List Extent),
      (∀ g ∈ groups, ∃ exts, scanGroup compile name g = .ok exts) →
      ∃ r, findLoop compile name groups result = .ok r := by
  intro groups
  induction groups with
  | nil => intro result _; exact ⟨result, rfl⟩
  | cons g gs ih =>
    intro result h
    obtain ⟨exts, he⟩ := h g (List.mem_cons_self _ _)
    obtain ⟨r, hr⟩ := ih (result ++ exts) (fun g2 hg2 => h g2 (List.mem_cons_of_mem _ hg2))
    exact ⟨r, by simp [findLoop, he, hr]⟩

theorem FindInComments_inv (compile : List Char → Outcome Regexp) (name : List Char) (f : File)
    (r : List Extent) (h : FindInCommentsWith compile name f = .ok r) :
    ∃ per : List (List Extent), r = per.flatten ∧
      List.Forall₂ (fun g exts => scanGroup compile name g = .ok exts) f.Comments per := by
  obtain ⟨per, hr, hall⟩ := findLoop_inv compile name f.Comments [] r h
  exact ⟨per, by simpa using hr, hall⟩

theorem compileModel_regexpstring (name : List Char) (hname : ∀ c ∈ name, isMeta c = false) :
    compileModel (regexpstring name) = .ok (wordPattern name).compiled := by
  simp [compileModel, MustCompile_regexpstring name hname]

theorem extentOf_length (name : List Char) (slash w : Nat) (idx : Nat × Nat) :
    (extentOf name slash w idx).length = len name := by
  unfold extentOf; split <;> rfl

theorem mem_scan (re : Regex) (name text : List Char) (slash n : Nat) (e : Extent)
    (h : e ∈ (FindAllStringIndex re.compiled text n).map (extentOf name slash 1)) :
    ∃ pre suf rest, text = pre ++ suf ∧ rest ∈ ends re suf ∧
      e.offset = slash + len pre + (if pre = [] then 2 else 1) ∧ e.length = len name := by
  obtain ⟨be, hbe, rfl⟩ := List.mem_map.1 h
  obtain ⟨pre, suf, rest, h1, h2, h3⟩ :=
    allMatches_sound re text _ _ 0 text none [] (by simp) (by simp [len]) be hbe
  refine ⟨pre, suf, rest, h1, h3, ?_, ?_⟩
  · unfold extentOf
    by_cases hp : pre = []
    · subst hp; simp [h2, len]
    · have hne : len pre ≠ 0 := fun h0 => hp (len_eq_zero h0)
      simp [h2, hp, hne]
  · unfold extentOf; split <;> rfl

theorem letterAfter_cons (d : Char) (r : List Char) : letterAfter (d :: r) = isLetter d := rfl

theorem letterBefore_append_singleton (a : List Char) (c : Char) :
    letterBefore (a ++ [c]) = isLetter c := by
  simp [letterBefore]

theorem scan_bounded (name : List Char) (c0 : Comment) (n : Nat) (e : Extent)
    (h : e ∈ (FindAllStringIndex (wordPattern name).compiled c0.Text n).map
      (extentOf name c0.Slash 1)) :
    BoundedMatch name c0 e := by
  obtain ⟨pre, suf, rest, h1, h2, h3, -⟩ := mem_scan _ _ _ _ _ _ h
  rcases (mem_ends_wordPattern name suf rest).1 h2 with
    ⟨c, d, hc, hd, rfl⟩ | ⟨d, hd, rfl⟩ | ⟨d, hd, rfl⟩ | ⟨c, hc, rfl, rfl⟩
  · exact ⟨pre, [c], d :: rest, by simp [h1], Or.inl ⟨c, rfl, hc⟩, by simp [letterAfter, hd], h3⟩
  · exact ⟨pre, ['/', '/'], d :: rest, by simp [h1], Or.inr (Or.inl rfl),
      by simp [letterAfter, hd], h3⟩
  · exact ⟨pre, ['/', '*'], d :: rest, by simp [h1], Or.inr (Or.inr rfl),
      by simp [letterAfter, hd], h3⟩
  · exact ⟨pre, [c], [], by simp [h1], Or.inl ⟨c, rfl, hc⟩, by simp [letterAfter], h3⟩

theorem split_one (pre a x y : List Char) (c : Char) (h : pre ++ c :: x = a ++ y)
    (hl : len a = len pre + 1) : a = pre ++ [c] ∧ x = y := by
  have h1 := len_boundary pre a x y c h.symm (by omega)
  have h2 := runeLen_pos c
  have h3 := append_inj_len (pre ++ [c]) a x y (by simpa using h)
    (by simp [len_append, len]; omega)
  exact ⟨h3.1.symm, h3.2⟩

theorem isIdentifier_head (name : List Char) (h : isIdentifier name = true) :
    ∃ n0 ns, name = n0 :: ns ∧ n0 ≠ '/' ∧ n0 ≠ '*' := by
  cases name with
  | nil => simp [isIdentifier] at h
  | cons n0 ns =>
    simp only [isIdentifier, Bool.and_eq_true] at h
    refine ⟨n0, ns, rfl, ?_, ?_⟩
    · intro hc; subst hc; exact absurd h.1 (by decide)
    · intro hc; subst hc; exact absurd h.1 (by decide)

theorem isCommentText_head (text : List Char) (h : isCommentText text = true) :
    ∃ x t, text = '/' :: x :: t ∧ (x = '/' ∨ x = '*') := by
  unfold isCommentText at h
  rcases text with _ | ⟨c, _ | ⟨x, t⟩⟩
  · simp [List.isPrefixOf] at h
  · simp [List.isPrefixOf] at h
  · simp [List.isPrefixOf] at h
    rcases h with ⟨rfl, rfl⟩ | ⟨rfl, rfl⟩
    · exact ⟨_, _, rfl, Or.inl rfl⟩
    · exact ⟨_, _, rfl, Or.inr rfl⟩

theorem scan_neverInside (name : List Char) (c0 : Comment) (n : Nat)
    (hid : isIdentifier name = true) (hct : isCommentText c0.Text = true) :
    NeverInsideWord name c0
      ((FindAllStringIndex (wordPattern name).compiled c0.Text n).map
        (extentOf name c0.Slash 1)) := by
  intro a b ht hlet e he heq
  obtain ⟨pre, suf, rest, h1, h2, h3, -⟩ := mem_scan _ _ _ _ _ _ he
  have hla : len a = len pre + (if pre = [] then 2 else 1) := by omega
  obtain ⟨n0, ns, hname, hn1, hn2⟩ := isIdentifier_head name hid
  obtain ⟨x, t, htext, hx⟩ := isCommentText_head _ hct
  have hs : isLetter '/' = false := by decide
  have hst : isLetter '*' = false := by decide
  rw [h1] at ht htext
  rcases (mem_ends_wordPattern name suf rest).1 h2 with
    ⟨c, d, hc, hd, rfl⟩ | ⟨d, hd, rfl⟩ | ⟨d, hd, rfl⟩ | ⟨c, hc, rfl, rfl⟩
  · by_cases hp : pre = []
    · subst hp; subst hname
      simp at htext
      obtain ⟨-, rfl, -⟩ := htext
      rcases hx with rfl | rfl
      · exact hn1 rfl
      · exact hn2 rfl
    · simp only [hp, if_false] at hla
      obtain ⟨rfl, hb⟩ := split_one pre a _ _ c (by simpa using ht) hla
      have hb2 : b = d :: rest := (List.append_cancel_left hb).symm
      subst hb2
      rw [letterBefore_append_singleton, letterAfter_cons, hc, hd] at hlet
      simp at hlet
  · by_cases hp : pre = []
    · subst hp
      simp only [if_true] at hla
      have h4 := append_inj_len ['/', '/'] a (name ++ d :: rest) (name ++ b)
        (by simpa using ht) (by simp [len, runeLen, hla])
      obtain ⟨rfl, hb⟩ := h4
      have hb2 : b = d :: rest := (List.append_cancel_left hb).symm
      subst hb2
      rw [letterAfter_cons, hd] at hlet
      simp [letterBefore, hs] at hlet
    · simp only [hp, if_false] at hla
      obtain ⟨rfl, hb⟩ := split_one pre a _ _ '/' (by simpa using ht) hla
      subst hname
      simp at hb
      exact hn1 hb.1.symm
  · by_cases hp : pre = []
    · subst hp
      simp only [if_true] at hla
      have h4 := append_inj_len ['/', '*'] a (name ++ d :: rest) (name ++ b)
        (by simpa using ht) (by simp [len, runeLen, hla])
      obtain ⟨rfl, hb⟩ := h4
      have hb2 : b = d :: rest := (List.append_cancel_left hb).symm
      subst hb2
      rw [letterAfter_cons, hd] at hlet
      simp [letterBefore, hst] at hlet
    · simp only [hp, if_false] at hla
      obtain ⟨rfl, hb⟩ := split_one pre a _ _ '/' (by simpa using ht) hla
      subst hname
      simp at hb
      exact hn2 hb.1.symm
  · by_cases hp : pre = []
    · subst hp; subst hname
      simp at htext
      obtain ⟨-, rfl, -⟩ := htext
      rcases hx with rfl | rfl
      · exact hn1 rfl
      · exact hn2 rfl
    · simp only [hp, if_false] at hla
      obtain ⟨rfl, hb⟩ := split_one pre a _ _ c (by simpa using ht) hla
      have hb2 : b = [] := by simpa using hb
      subst hb2
      rw [letterBefore_append_singleton, hc] at hlet
      simp [letterAfter] at hlet

/-! ## Lemmas on strings.Count -/

theorem countFrom_eq_zero (substr : List Char) :
    ∀ (s : List Char) (skip : Nat), (∀ a b, s ≠ a ++ substr ++ b) → countFrom substr s skip = 0 := by
  intro s
  induction s with
  | nil => intro skip _; simp [countFrom]
  | cons c cs ih =>
    intro skip h
    have hcs : ∀ a b, cs ≠ a ++ substr ++ b := by
      intro a b hab
      exact h (c :: a) b (by simp [hab])
    cases skip with
    | succ k => simp [countFrom, ih k hcs]
    | zero =>
      have hp : substr.isPrefixOf (c :: cs) = false := by
        rw [Bool.eq_false_iff]
        intro hp
        obtain ⟨t, ht⟩ := List.isPrefixOf_iff_prefix.1 hp
        exact h [] t (by simp [ht])
      simp [countFrom, hp, ih 0 hcs]

theorem Count_eq_zero (s substr : List Char) (h : ∀ a b, s ≠ a ++ substr ++ b) :
    Count s substr = 0 := by
  unfold Count
  split
  · rename_i he
    exact absurd (by simp [he]) (h [] s)
  · exact countFrom_eq_zero substr s 0 h

theorem scanGroup_length (compile : List Char → Outcome Regexp) (name : List Char)
    (g : CommentGroup) (exts : List Extent) (h : scanGroup compile name g = .ok exts) :
    ∃ c0 rest, g.List = c0 :: rest ∧ exts.length ≤ Count c0.Text name ∧
      ((∀ a b, c0.Text ≠ a ++ name ++ b) → exts = []) := by
  obtain ⟨c0, rest, re, hl, -, rfl⟩ := scanGroup_inv compile name g exts h
  have hlen := allMatches_length (re.doExecute c0.Text) (c0.Text.length + 1)
    (Count c0.Text name) 0 c0.Text none
  refine ⟨c0, rest, hl, by simpa [FindAllStringIndex] using hlen, ?_⟩
  intro hno
  rw [Count_eq_zero _ _ hno] at hlen
  have : FindAllStringIndex re c0.Text (Count c0.Text name) = [] := by
    rw [Count_eq_zero _ _ hno]
    exact List.length_eq_zero.1 (by unfold FindAllStringIndex; omega)
  simp [this]

theorem length_flatten_le (compile : List Char → Outcome Regexp) (name : List Char) :
    ∀ (groups : List CommentGroup) (per : List (List Extent)),
      List.Forall₂ (fun g exts => scanGroup compile name g = .ok exts) groups per →
      per.flatten.length ≤ countSum name groups := by
  intro groups per h
  induction h with
  | nil => simp [countSum]
  | cons hg _ ih =>
    obtain ⟨c0, rest, hl, hle, -⟩ := scanGroup_length compile name _ _ hg
    simp only [countSum, List.map_cons, List.sum_cons, List.flatten_cons, List.length_append,
      hl] at ih ⊢
    omega

theorem scanGroup_total (compile : List Char → Outcome Regexp) (name : List Char) (re : Regexp)
    (hre : compile (regexpstring name) = .ok re) (g : CommentGroup) (hg : g.List ≠ []) :
    ∃ exts, scanGroup compile name g = .ok exts := by
  obtain ⟨l⟩ := g
  cases l with
  | nil => exact absurd rfl hg
  | cons c0 rest => exact ⟨_, scanGroup_ok compile name c0 rest re hre⟩

theorem forall₂_mem_right {α β : Type} {R : α → β → Prop} :
    ∀ {xs : List α} {ys : List β}, List.Forall₂ R xs ys → ∀ y ∈ ys, ∃ x ∈ xs, R x y := by
  intro xs ys h
  induction h with
  | nil => intro y hy; simp at hy
  | cons hr _ ih =>
    intro y hy
    rcases List.mem_cons.1 hy with rfl | hy
    · exact ⟨_, List.mem_cons_self _ _, hr⟩
    · obtain ⟨x, hx, hxy⟩ := ih y hy
      exact ⟨x, List.mem_cons_of_mem _ hx, hxy⟩

theorem forall₂_wordScan (name : List Char) (hid : isIdentifier name = true) :
    ∀ (groups : List CommentGroup) (per : List (List Extent)),
      (∀ g ∈ groups, ∃ c0 rest, g.List = c0 :: rest ∧ isCommentText c0.Text = true) →
      List.Forall₂ (fun g exts => scanGroup compileModel name g = .ok exts) groups per →
      List.Forall₂ (fun g exts => ∃ c0 rest, g.List = c0 :: rest ∧
        NeverInsideWord name c0 exts ∧ ∀ e ∈ exts, BoundedMatch name c0 e) groups per := by
  intro groups per hwf h
  induction h with
  | nil => exact List.Forall₂.nil
  | @cons g exts gs per2 hg _ ih =>
    refine List.Forall₂.cons ?_ (ih fun g2 hg2 => hwf g2 (List.mem_cons_of_mem _ hg2))
    obtain ⟨c0, rest, hl, hct⟩ := hwf g (List.mem_cons_self _ _)
    obtain ⟨c1, rest1, re, hl1, hre, hexts⟩ := scanGroup_inv compileModel name g exts hg
    rw [hl] at hl1
    obtain ⟨rfl, rfl⟩ := List.cons.inj hl1
    rw [compileModel_regexpstring name (isIdentifier_noMeta name hid)] at hre
    obtain rfl : (wordPattern name).compiled = re := by simpa using hre
    subst hexts
    exact ⟨c0, rest, hl, scan_neverInside name c0 _ hid hct,
      fun e he => scan_bounded name c0 _ e he⟩

/-- C5: for every Go identifier name and every file whose comment groups start with a
well-formed comment text, FindInComments returns, its result is the concatenation of the
extents found in the first comment of each group, and for each such comment no extent has
the offset of an occurrence of the name whose left or right neighbour is a letter; every
extent comes from a match bounded on the left by a non-letter character or the comment
marker and on the right by a non-letter character or the end of the text. -/
theorem C5_no_occurrence_inside_longer_word (name : List Char) (f : File)
    (hid : isIdentifier name = true)
    (hwf : ∀ g ∈ f.Comments, ∃ c0 rest, g.List = c0 :: rest ∧ isCommentText c0.Text = true) :
    ∃ per : List (List Extent), FindInComments name f = .ok per.flatten ∧
      List.Forall₂ (fun g exts => ∃ c0 rest, g.List = c0 :: rest ∧
        NeverInsideWord name c0 exts ∧ ∀ e ∈ exts, BoundedMatch name c0 e) f.Comments per := by
  have htot : ∀ g ∈ f.Comments, ∃ exts, scanGroup compileModel name g = .ok exts := by
    intro g hg
    obtain ⟨c0, rest, hl, -⟩ := hwf g hg
    exact scanGroup_total compileModel name _
      (compileModel_regexpstring name (isIdentifier_noMeta name hid)) g (by simp [hl])
  obtain ⟨r, hr⟩ := findLoop_ok compileModel name f.Comments [] htot
  obtain ⟨per, hper, hall⟩ := FindInComments_inv compileModel name f r hr
  exact ⟨per, by rw [← hper]; exact hr, forall₂_wordScan name hid _ _ hwf hall⟩

/-- Witness of C5 on the comment of the scenario of the specification. -/
theorem C5_no_occurrence_inside_longer_word_witness :
    isIdentifier "Foo".toList = true ∧
    ∃ per : List (List Extent),
      FindInComments "Foo".toList ⟨[⟨[⟨100, "// Foo does X. See Foo2 and fooFoo.".toList⟩]⟩]⟩ =
        .ok per.flatten ∧
      List.Forall₂ (fun (g : CommentGroup) (exts : List Extent) => ∃ c0 rest, g.List = c0 :: rest ∧
        NeverInsideWord "Foo".toList c0 exts ∧ ∀ e ∈ exts, BoundedMatch "Foo".toList c0 e)
        [⟨[⟨100, "// Foo does X. See Foo2 and fooFoo.".toList⟩]⟩] per :=
  ⟨by decide,
   C5_no_occurrence_inside_longer_word "Foo".toList
    ⟨[⟨[⟨100, "// Foo does X. See Foo2 and fooFoo.".toList⟩]⟩]⟩ (by decide) (by
      intro g hg
      rcases List.mem_singleton.1 hg with rfl
      exact ⟨_, _, rfl, by decide⟩)⟩

/-- C7 (amended): FindInComments inserts the name into the pattern as it is. For every
name that is a Go identifier, or more generally has no regexp metacharacter, the pattern
compiles to the expression in which each character of the name is a literal, and the scan
of a file whose comment groups are non-empty returns without a panic. -/
theorem C7_pattern_of_metafree_name (name : List Char)
    (h : isIdentifier name = true ∨ ∀ c ∈ name, isMeta c = false) :
    MustCompile (regexpstring name) = .ok (wordPattern name) ∧
      ∀ f : File, (∀ g ∈ f.Comments, g.List ≠ []) → ∃ r, FindInComments name f = .ok r := by
  have hname : ∀ c ∈ name, isMeta c = false := by
    rcases h with h | h
    · exact isIdentifier_noMeta name h
    · exact h
  refine ⟨MustCompile_regexpstring name hname, ?_⟩
  intro f hf
  exact findLoop_ok compileModel name f.Comments [] fun g hg =>
    scanGroup_total compileModel name _ (compileModel_regexpstring name hname) g (hf g hg)

/-- Witness of C7 (amended) on the identifier Foo. -/
theorem C7_pattern_of_metafree_name_witness :
    MustCompile (regexpstring "Foo".toList) = .ok (wordPattern "Foo".toList) ∧
      ∀ f : File, (∀ g ∈ f.Comments, g.List ≠ []) →
        ∃ r, FindInComments "Foo".toList f = .ok r :=
  C7_pattern_of_metafree_name "Foo".toList (Or.inl (by decide))

/-- C7 (counterexample): the name is not escaped. With the name "(" the pattern has an
unclosed group and MustCompile panics on a file with one comment; with the name "." the
dot keeps its meaning of any character, so that the extent found in "// a. b" is the blank
at index 2 (the match of the three characters "// " at index 0) and not the full stop. -/
theorem C7_counterexample :
    MustCompile (regexpstring "(".toList) = .panic ∧
    FindInComments "(".toList ⟨[⟨[⟨0, "// x".toList⟩]⟩]⟩ = .panic ∧
    FindInComments ".".toList ⟨[⟨[⟨0, "// a. b".toList⟩]⟩]⟩ = .ok [⟨2, 1⟩] := by
  decide

/-- C8: every extent returned by FindInComments has the byte length of the name as its
length, for every name and every file. The compile function is arbitrary, so the statement
covers every pattern, whatever expression the regexp library builds for it; and whenever
the pattern compiles and no comment group is empty, the scan does return such a result. -/
theorem C8_extent_length (compile : List Char → Outcome Regexp) (name : List Char) (f : File) :
    (∀ r, FindInCommentsWith compile name f = .ok r → ∀ e ∈ r, e.length = len name) ∧
    (∀ re, compile (regexpstring name) = .ok re → (∀ g ∈ f.Comments, g.List ≠ []) →
      ∃ r, FindInCommentsWith compile name f = .ok r ∧ ∀ e ∈ r, e.length = len name) := by
  have hlen : ∀ r, FindInCommentsWith compile name f = .ok r → ∀ e ∈ r, e.length = len name := by
    intro r h e he
    obtain ⟨per, rfl, hall⟩ := FindInComments_inv compile name f r h
    obtain ⟨exts, hexts, hee⟩ := List.mem_flatten.1 he
    obtain ⟨g, -, hg⟩ := forall₂_mem_right hall exts hexts
    obtain ⟨c0, rest, re, -, -, rfl⟩ := scanGroup_inv compile name g exts hg
    obtain ⟨idx, -, rfl⟩ := List.mem_map.1 hee
    exact extentOf_length name _ _ idx
  refine ⟨hlen, ?_⟩
  intro re hre hf
  obtain ⟨r, hr⟩ := findLoop_ok compile name f.Comments [] fun g hg =>
    scanGroup_total compile name re hre g (hf g hg)
  exact ⟨r, hr, hlen r hr⟩

/-- Witness of C8 on the comment of the scenario of the specification. -/
theorem C8_extent_length_witness :
    FindInComments "Foo".toList ⟨[⟨[⟨100, "// Foo does X. See Foo2 and fooFoo.".toList⟩]⟩]⟩ =
        .ok [⟨103, 3⟩, ⟨119, 3⟩] ∧
    (∀ e ∈ [(⟨103, 3⟩ : Extent), ⟨119, 3⟩], e.length = len "Foo".toList) ∧
    ∃ r, FindInComments "Foo".toList
        ⟨[⟨[⟨100, "// Foo does X. See Foo2 and fooFoo.".toList⟩]⟩]⟩ = .ok r ∧
      ∀ e ∈ r, e.length = len "Foo".toList :=
  ⟨by decide,
   (C8_extent_length compileModel "Foo".toList
      ⟨[⟨[⟨100, "// Foo does X. See Foo2 and fooFoo.".toList⟩]⟩]⟩).1 _ (by decide),
   (C8_extent_length compileModel "Foo".toList
      ⟨[⟨[⟨100, "// Foo does X. See Foo2 and fooFoo.".toList⟩]⟩]⟩).2 _
      (compileModel_regexpstring "Foo".toList (by decide)) (by simp)⟩

/-- C10: the extents that FindInComments returns are, group by group, at most as many as
strings.Count finds instances of the name in the text of the first comment of the group;
a comment text that does not contain the name contributes no extent, and the length of
the whole result is at most the sum of the counts. The compile function is arbitrary, so
the statement covers every name and pattern, whatever expression the regexp library
builds: the bound comes from the limit n of FindAllStringIndex alone. Whenever the pattern
compiles and no comment group is empty, the scan does return. -/
theorem C10_bounded_by_literal_count (compile : List Char → Outcome Regexp) (name : List Char)
    (f : File) :
    (∀ r, FindInCommentsWith compile name f = .ok r →
      (∃ per : List (List Extent), r = per.flatten ∧
        List.Forall₂ (fun g exts => ∃ c0 rest, g.List = c0 :: rest ∧
          exts.length ≤ Count c0.Text name ∧
          ((∀ a b, c0.Text ≠ a ++ name ++ b) → exts = [])) f.Comments per) ∧
      r.length ≤ countSum name f.Comments) ∧
    (∀ re, compile (regexpstring name) = .ok re → (∀ g ∈ f.Comments, g.List ≠ []) →
      ∃ r, FindInCommentsWith compile name f = .ok r) := by
  refine ⟨?_, ?_⟩
  · intro r h
    obtain ⟨per, rfl, hall⟩ := FindInComments_inv compile name f r h
    refine ⟨⟨per, rfl, ?_⟩, length_flatten_le compile name _ _ hall⟩
    exact List.Forall₂.imp (fun g exts hg => scanGroup_length compile name g exts hg) hall
  · intro re hre hf
    exact findLoop_ok compile name f.Comments [] fun g hg =>
      scanGroup_total compile name re hre g (hf g hg)

/-- Witness of C10 on the comment of the scenario of the specification, where the count
is 3 and two extents are returned. -/
theorem C10_bounded_by_literal_count_witness :
    countSum "Foo".toList [⟨[⟨100, "// Foo does X. See Foo2 and fooFoo.".toList⟩]⟩] = 3 ∧
    ((∃ per : List (List Extent), [(⟨103, 3⟩ : Extent), ⟨119, 3⟩] = per.flatten ∧
      List.Forall₂ (fun (g : CommentGroup) (exts : List Extent) =>
        ∃ c0 rest, g.List = c0 :: rest ∧
        exts.length ≤ Count c0.Text "Foo".toList ∧
        ((∀ a b, c0.Text ≠ a ++ "Foo".toList ++ b) → exts = []))
        [⟨[⟨100, "// Foo does X. See Foo2 and fooFoo.".toList⟩]⟩] per) ∧
    [(⟨103, 3⟩ : Extent), ⟨119, 3⟩].length ≤
      countSum "Foo".toList [⟨[⟨100, "// Foo does X. See Foo2 and fooFoo.".toList⟩]⟩]) ∧
    ∃ r, FindInComments "Foo".toList
      ⟨[⟨[⟨100, "// Foo does X. See Foo2 and fooFoo.".toList⟩]⟩]⟩ = .ok r :=
  ⟨by decide,
   (C10_bounded_by_literal_count compileModel "Foo".toList
      ⟨[⟨[⟨100, "// Foo does X. See Foo2 and fooFoo.".toList⟩]⟩]⟩).1 _ (by decide),
   (C10_bounded_by_literal_count compileModel "Foo".toList
      ⟨[⟨[⟨100, "// Foo does X. See Foo2 and fooFoo.".toList⟩]⟩]⟩).2 _
      (compileModel_regexpstring "Foo".toList (by decide)) (by simp)⟩

/-- C1 (counterexample): on the comment of the scenario at file offset 0 the scan for Foo
returns two extents, the first Foo at offset 3 and the Foo of Foo2 at offset 19 (the digit
2 is not a letter, so it bounds the match); the result is not a single extent. -/
theorem C1_counterexample :
    FindInComments "Foo".toList ⟨[⟨[⟨0, "// Foo does X. See Foo2 and fooFoo.".toList⟩]⟩]⟩ =
      .ok [⟨3, 3⟩, ⟨19, 3⟩] ∧
    ¬ ∃ e, FindInComments "Foo".toList
      ⟨[⟨[⟨0, "// Foo does X. See Foo2 and fooFoo.".toList⟩]⟩]⟩ = .ok [e] := by
  have h : FindInComments "Foo".toList
      ⟨[⟨[⟨0, "// Foo does X. See Foo2 and fooFoo.".toList⟩]⟩]⟩ = .ok [⟨3, 3⟩, ⟨19, 3⟩] := by
    decide
  refine ⟨h, ?_⟩
  rintro ⟨e, he⟩
  rw [h] at he
  simp at he

/-- C1 (amended): scanning the single comment text of the scenario, which starts at file
offset slashIdx, for the name Foo returns exactly two extents of length 3: the first Foo
(offset slashIdx+3) and the Foo inside Foo2 (offset slashIdx+19); the Foo inside fooFoo
(text index 31) is not reported. -/
theorem C1_scenario_two_extents (slashIdx : Nat) :
    FindInComments "Foo".toList
      ⟨[⟨[⟨slashIdx, "// Foo does X. See Foo2 and fooFoo.".toList⟩]⟩]⟩ =
      .ok [⟨slashIdx + 3, 3⟩, ⟨slashIdx + 19, 3⟩] := by
  have hre : compileModel (regexpstring "Foo".toList) = .ok (wordPattern "Foo".toList).compiled :=
    compileModel_regexpstring "Foo".toList (by decide)
  have hm : FindAllStringIndex (wordPattern "Foo".toList).compiled
      "// Foo does X. See Foo2 and fooFoo.".toList
      (Count "// Foo does X. See Foo2 and fooFoo.".toList "Foo".toList) = [(2, 7), (18, 23)] := by
    decide
  have hl : len "Foo".toList = 3 := by decide
  unfold FindInComments FindInCommentsWith
  simp only [findLoop, scanGroup_ok _ _ _ _ _ hre]
  rw [hm]
  simp [extentOf, len, runeLen]

/-- C2 (failing input): in the comment "// Foo Foo" the two whole-word occurrences of Foo
at the text indices 3 and 7 share the blank at index 6; the match of the first one
consumes that blank, so only the extent at offset 3 is returned and the occurrence at
index 7, which has a blank before it and the end of the text after it, is missed. -/
theorem C2_adjacent_occurrence_missed :
    FindInComments "Foo".toList ⟨[⟨[⟨0, "// Foo Foo".toList⟩]⟩]⟩ = .ok [⟨3, 3⟩] ∧
    "// Foo Foo".toList = "// Foo ".toList ++ "Foo".toList ++ [] ∧
    len "// Foo ".toList = 7 ∧
    letterBefore "// Foo ".toList = false ∧ letterAfter [] = false := by
  decide

set_option maxRecDepth 20000 in
/-- C3 (failing input): in the comment "// http://Foo bar" the pattern matches "//Foo " at
index 8 through its second alternative, and the extent returned has offset 9: the text
from there on is "/Foo bar", so the extent covers "/Fo" and not the name. In the comment
"// →Foo bar" the match starts at the three-byte arrow at index 3 and the extent has
offset 4, inside the encoding of the arrow, while the name starts at index 6. -/
theorem C3_extent_not_on_name :
    FindInComments "Foo".toList ⟨[⟨[⟨0, "// http://Foo bar".toList⟩]⟩]⟩ = .ok [⟨9, 3⟩] ∧
    dropBytes 9 "// http://Foo bar".toList = some "/Foo bar".toList ∧
    FindInComments "Foo".toList ⟨[⟨[⟨0, "// →Foo bar".toList⟩]⟩]⟩ = .ok [⟨4, 3⟩] ∧
    dropBytes 4 "// →Foo bar".toList = none ∧
    dropBytes 6 "// →Foo bar".toList = some "Foo bar".toList := by
  decide

/-- C4 (failing input): a comment group of two line comments whose second comment holds
the whole word Foo: only the first comment of the group is read and the result is empty,
while the same comment standing first in a group of its own is found. -/
theorem C4_later_comment_not_searched :
    FindInComments "Foo".toList
      ⟨[⟨[⟨0, "// first line".toList⟩, ⟨14, "// Foo second".toList⟩]⟩]⟩ = .ok [] ∧
    FindInComments "Foo".toList
      ⟨[⟨[⟨0, "// first line".toList⟩]⟩, ⟨[⟨14, "// Foo second".toList⟩]⟩]⟩ =
      .ok [⟨17, 3⟩] := by
  decide

theorem FindAllStringIndex_empty_name_ne_nil (text : List Char)
    (hct : isCommentText text = true) :
    FindAllStringIndex (wordPattern []).compiled text (Count text []) ≠ [] := by
  obtain ⟨x, t, rfl, hx⟩ := isCommentText_head text hct
  have hs : isLetter '/' = false := by decide
  have hx2 : isLetter x = false := by
    rcases hx with rfl | rfl
    · exact hs
    · decide
  have hends : ∃ more, ends (wordPattern []) ('/' :: x :: t) = t :: more := by
    simp [wordPattern, catOf, ends, hs, hx2]
  obtain ⟨more, hmore⟩ := hends
  have hsearch : search (wordPattern []) 0 ('/' :: x :: t) =
      some (0, 0 + (len ('/' :: x :: t) - len t), t) := by
    simp [search, hmore]
  have h1 := runeLen_pos '/'
  have hne : ¬ (0 + (len ('/' :: x :: t) - len t) = 0) := by
    simp only [len]; omega
  unfold FindAllStringIndex Count
  simp only [if_true, List.length_cons, Regex.compiled]
  rw [allMatches]
  simp only [hsearch]
  rw [if_neg (by omega), if_neg hne]
  simp

/-- C6 (counterexample): with the empty name the pattern still matches two adjacent
non-letter characters, and the count of the empty string is not zero: on the comment
"// x" at file offset 0 the result is one extent of length 0 at offset 2, not the empty
result. -/
theorem C6_counterexample :
    FindInComments [] ⟨[⟨[⟨0, "// x".toList⟩]⟩]⟩ = .ok [⟨2, 0⟩] ∧
    FindInComments [] ⟨[⟨[⟨0, "// x".toList⟩]⟩]⟩ ≠ .ok [] := by
  decide

/-- C6 (amended): FindInComments called with the empty name returns the empty result on a
file without comment groups; every extent it returns has length 0; and on a file with at
least one comment group, each group starting with a well-formed comment text, it returns
a result that is not empty. -/
theorem C6_empty_name (f : File) :
    (f.Comments = [] → FindInComments [] f = .ok []) ∧
    (∀ r, FindInComments [] f = .ok r → ∀ e ∈ r, e.length = 0) ∧
    (f.Comments ≠ [] →
      (∀ g ∈ f.Comments, ∃ c0 rest, g.List = c0 :: rest ∧ isCommentText c0.Text = true) →
      ∃ r, FindInComments [] f = .ok r ∧ r ≠ []) := by
  refine ⟨?_, ?_, ?_⟩
  · intro h
    simp [FindInComments, FindInCommentsWith, h, findLoop]
  · intro r h e he
    obtain ⟨per, rfl, hall⟩ := FindInComments_inv compileModel [] f r h
    obtain ⟨exts, hexts, hee⟩ := List.mem_flatten.1 he
    obtain ⟨g, -, hg⟩ := forall₂_mem_right hall exts hexts
    obtain ⟨c0, rest, re, -, -, rfl⟩ := scanGroup_inv compileModel [] g exts hg
    obtain ⟨idx, -, rfl⟩ := List.mem_map.1 hee
    simpa [len] using extentOf_length [] c0.Slash 1 idx
  · obtain ⟨groups⟩ := f
    intro hne hwf
    simp only at hne hwf
    have hname : ∀ c ∈ ([] : List Char), isMeta c = false := by simp
    have htot : ∀ g ∈ groups, ∃ exts, scanGroup compileModel [] g = .ok exts := by
      intro g hg
      obtain ⟨c0, rest, hl, -⟩ := hwf g hg
      exact scanGroup_total compileModel [] _ (compileModel_regexpstring [] hname) g
        (by simp [hl])
    obtain ⟨r, hr⟩ := findLoop_ok compileModel [] groups [] htot
    refine ⟨r, hr, ?_⟩
    obtain ⟨per, rfl, hall⟩ := FindInComments_inv compileModel [] ⟨groups⟩ r hr
    simp only at hall
    cases hall with
    | nil => exact absurd rfl hne
    | @cons g exts gs per2 hg _ =>
      obtain ⟨c0, rest, hl, hct⟩ := hwf g (List.mem_cons_self _ _)
      obtain ⟨c1, rest1, re, hl1, hre, hexts⟩ := scanGroup_inv compileModel [] g exts hg
      rw [hl] at hl1
      obtain ⟨rfl, rfl⟩ := List.cons.inj hl1
      rw [compileModel_regexpstring [] hname] at hre
      obtain rfl : (wordPattern []).compiled = re := by simpa using hre
      have := FindAllStringIndex_empty_name_ne_nil c0.Text hct
      intro hflat
      simp only [List.flatten_cons, List.append_eq_nil] at hflat
      rw [hexts] at hflat
      exact this (List.map_eq_nil_iff.1 hflat.1)

/-- Witness of C6 (amended) on the file with the one comment "// x" at offset 0. -/
theorem C6_empty_name_witness :
    (∀ e ∈ [(⟨2, 0⟩ : Extent)], e.length = 0) ∧
    ∃ r, FindInComments [] ⟨[⟨[⟨0, "// x".toList⟩]⟩]⟩ = .ok r ∧ r ≠ [] :=
  ⟨(C6_empty_name ⟨[⟨[⟨0, "// x".toList⟩]⟩]⟩).2.1 _ (by decide),
   (C6_empty_name ⟨[⟨[⟨0, "// x".toList⟩]⟩]⟩).2.2 (by simp) (by
      intro g hg
      rcases List.mem_singleton.1 hg with rfl
      exact ⟨_, _, rfl, by decide⟩)⟩

/-- C9: when the selection is no identifier (selectedNode is nil or a node of another
type), showAffected and showReferences each log their error message, associate the start
and the end of the selection with it, and leave the output writer as it was: neither a
header line nor a result line is written. -/
theorem C9_selection_not_an_identifier {L : Type} (ops : LogOps L) (r : Debug L)
    (out : List String) (h : r.selectedNode = none ∨ r.selectedNode = some .Other) :
    showAffected ops r out =
      (ops.AssociatePos (ops.Error r.Log "Please select an identifier for showaffected")
        r.selectionStart r.selectionEnd, out) ∧
    showReferences ops r out =
      (ops.AssociatePos (ops.Error r.Log "Please select an identifier for showreferences")
        r.selectionStart r.selectionEnd, out) := by
  rcases h with h | h <;> simp [showAffected, showReferences, h]

/-- Witness of C9: nothing selected, selection from 5 to 8, empty log and empty writer. -/
theorem C9_selection_not_an_identifier_witness :
    showAffected listLog ⟨[], none, 5, 8, emptyProgram⟩ [] =
      ([("Please select an identifier for showaffected", some (5, 8))], []) ∧
    showReferences listLog ⟨[], none, 5, 8, emptyProgram⟩ [] =
      ([("Please select an identifier for showreferences", some (5, 8))], []) :=
  C9_selection_not_an_identifier listLog ⟨[], none, 5, 8, emptyProgram⟩ [] (Or.inl rfl)

/-- The identifier branch of showReferences on an example: header line, then the sorted
descriptions, one per line; the log is left as it was. -/
theorem showReferences_identifier_example :
    showReferences listLog ⟨[], some (.Ident "x" 1), 5, 8,
      ⟨fun _ => [], fun _ => ["  b.go: 3", "  a.go: 1"], id⟩⟩ [] =
    ([], ["References to x:\n", "  a.go: 1\n", "  b.go: 3\n"]) := by decide

theorem search_rest_length (re : Regex) (s : List Char) (pos b e : Nat) (rest : List Char)
    (h : search re pos s = some (b, e, rest)) (he : e ≠ pos) : rest.length < s.length := by
  obtain ⟨pre, suf, h1, h2, h3, h4⟩ := search_sound re s pos b e rest h
  obtain ⟨m, hm⟩ := ends_suffix re suf rest h3
  subst h1 hm
  rw [len_append] at h4
  have hne : pre ++ m ≠ [] := by
    intro hnil
    obtain ⟨rfl, rfl⟩ := List.append_eq_nil.1 hnil
    simp [len] at h4 h2
    omega
  have : 0 < (pre ++ m).length := List.length_pos.2 hne
  simp only [List.length_append] at this ⊢
  omega

/-- The budget of the loop is never used up for an expression of the fragment: any two
budgets above the number of code points that remain give the same matches. -/
theorem allMatches_budget (re : Regex) :
    ∀ (k1 k2 n pos : Nat) (s : List Char) (prev : Option Nat),
      s.length < k1 → s.length < k2 →
      allMatches (search re) k1 n pos s prev = allMatches (search re) k2 n pos s prev := by
  intro k1
  induction k1 with
  | zero => intro k2 n pos s prev h1; omega
  | succ k ih =>
    intro k2 n pos s prev h1 h2
    cases k2 with
    | zero => omega
    | succ j =>
      unfold allMatches
      split
      · rfl
      · split
        · rfl
        · rename_i b e rest hs
          split
          · split
            · rfl
            · rename_i c cs
              simp only [List.length_cons] at h1 h2
              dsimp only
              rw [ih j (n - 1) _ cs _ (by omega) (by omega), ih j n _ cs _ (by omega) (by omega)]
          · rename_i hne
            have := search_rest_length re s pos b e rest hs hne
            rw [ih j (n - 1) _ rest _ (by omega) (by omega)]

end GoDoctor
